import Mathlib

/-!
Verification of the spacetime-crawler4py core against its specification.

The Python sources are shallowly embedded: pure functions become Lean
functions, the stateful `Frontier` and the analytics aggregator become
explicit state passing over concrete state structures.  Timestamps
(`time.time()` floats) are modelled as integers (e.g. milliseconds); all
comparisons in the source are order comparisons, which this preserves.
External collaborators that are not part of the repository's `src/`
(the `utils` module's `normalize`/`get_urlhash`, the HTML parser) are
modelled from the spec where needed, each marked in its doc comment.
-/

namespace Crawler

/-! ## Character/string helpers (models of the Python str operations used) -/

/-- Lowercase a string character-wise (model of `str.lower()` on the ASCII
URLs and tokens this program handles). -/
def lowerS (s : String) : String := String.mk (s.data.map Char.toLower)

/-- Whether `pat` occurs as a contiguous substring of `s` (model of Python
`pat in s`; the empty pattern occurs in every string, as in Python). -/
def hasSubL (pat : List Char) : List Char → Bool
  | [] => pat.isEmpty
  | c :: t => pat.isPrefixOf (c :: t) || hasSubL pat t

/-- `pat in s` on strings. -/
def containsS (s pat : String) : Bool := hasSubL pat.data s.data

/-- `s.startswith(p)`. -/
def startsWithS (s p : String) : Bool := p.data.isPrefixOf s.data

/-- `s.endswith(p)`. -/
def endsWithS (s p : String) : Bool := p.data.isSuffixOf s.data

/-- Fuelled non-overlapping substring count; fuel bounds the scan length. -/
def countSubFuel (pat : List Char) : Nat → List Char → Nat
  | 0, _ => 0
  | _, [] => 0
  | fuel + 1, c :: t =>
    if !pat.isEmpty && pat.isPrefixOf (c :: t) then
      1 + countSubFuel pat fuel (List.drop (pat.length - 1) t)
    else
      countSubFuel pat fuel t

/-- Model of Python `s.count(pat)` (non-overlapping occurrences) for a
non-empty pattern: each step consumes at least one character, so fuel
`s.length` suffices. -/
def countSub (s pat : String) : Nat := countSubFuel pat.data s.data.length s.data

/-- Split a character list at every occurrence of `sep`, keeping empty
pieces (model of Python `str.split(sep)` for a one-character separator). -/
def splitOnC (sep : Char) : List Char → List (List Char)
  | [] => [[]]
  | c :: t =>
    if c = sep then [] :: splitOnC sep t
    else
      match splitOnC sep t with
      | [] => [[c]]
      | h :: r => (c :: h) :: r

/-- Everything before the first occurrence of `sep`, paired with what
follows it (`none` when `sep` is absent). -/
def splitAtFirst (sep : Char) : List Char → List Char × Option (List Char)
  | [] => ([], none)
  | c :: t =>
    if c = sep then ([], some t)
    else
      match splitAtFirst sep t with
      | (pre, rest) => (c :: pre, rest)

/-- Everything after the last occurrence of `c` (the whole list when `c`
is absent), modelling `str.rpartition(c)[2]`. -/
def afterLast (c : Char) (l : List Char) : List Char :=
  (l.reverse.takeWhile (fun x => x ≠ c)).reverse

/-- Whether the first seven characters match the date-trap pattern
(four digits, a dash or slash, two digits) anchored here. -/
def dateSeqAt : List Char → Bool
  | a :: b :: c :: d :: e :: f :: g :: _ =>
    a.isDigit && b.isDigit && c.isDigit && d.isDigit &&
      (e = '-' || e = '/') && f.isDigit && g.isDigit
  | _ => false

/-- Model of the date regex search of `is_valid` (four digits, a dash or
slash, two digits): the pattern matches at some position of `s`. -/
def hasDateSeq : List Char → Bool
  | [] => false
  | c :: t => dateSeqAt (c :: t) || hasDateSeq t

/-! ## Model of `urllib.parse.urlparse` (the fields this program reads) -/

/-- The components of a parsed URL that `scraper.py` and `frontier.py`
read: scheme, netloc, path, query and fragment. -/
structure ParseResult where
  scheme : String
  netloc : String
  path : String
  query : String
  fragment : String
deriving DecidableEq, Repr

/-- Whether `c` may appear in a URL scheme after its first letter. -/
def isSchemeChar (c : Char) : Bool :=
  c.isAlphanum || c = '+' || c = '-' || c = '.'

/-- Model of `urllib.parse.urlparse` for the absolute http(s) URLs this
crawler handles: the scheme is the lowercased prefix before the first `:`
when it is a well-formed scheme, the netloc follows `//` up to the next
`/`, `?` or `#`, the fragment follows the first `#` and the query the
first `?` of what remains. -/
def urlparse (url : String) : ParseResult :=
  let s := url.data
  let schemeSplit :=
    match splitAtFirst ':' s with
    | (pre, some post) =>
      if !pre.isEmpty && (pre.headD ' ').isAlpha && pre.all isSchemeChar then
        (pre.map Char.toLower, post)
      else ([], s)
    | (_, none) => ([], s)
  let scheme := schemeSplit.1
  let rest := schemeSplit.2
  let netlocSplit :=
    if rest.take 2 = ['/', '/'] then
      ((rest.drop 2).takeWhile (fun c => c ≠ '/' && c ≠ '?' && c ≠ '#'),
       (rest.drop 2).dropWhile (fun c => c ≠ '/' && c ≠ '?' && c ≠ '#'))
    else ([], rest)
  let netloc := netlocSplit.1
  let fragSplit := splitAtFirst '#' netlocSplit.2
  let fragment := (fragSplit.2).getD []
  let querySplit := splitAtFirst '?' fragSplit.1
  let query := (querySplit.2).getD []
  ⟨String.mk scheme, String.mk netloc, String.mk querySplit.1,
   String.mk query, String.mk fragment⟩

/-- Model of Python's `ParseResult.hostname`: the netloc after the last
`@`, before the first `:`, lowercased; the empty string models `None`. -/
def hostnameOf (netloc : String) : String :=
  String.mk (((afterLast '@' netloc.data).takeWhile (fun c => c ≠ ':')).map Char.toLower)

/-- Model of `urllib.parse.urldefrag`: the URL up to its first `#`. -/
def urldefrag (url : String) : String :=
  String.mk (splitAtFirst '#' url.data).1

/-! ## `scraper.is_valid`: the trap detector -/

/-- `ALLOWED_DOMAINS` from `scraper.py`. -/
def ALLOWED_DOMAINS : List String :=
  [".ics.uci.edu", ".cs.uci.edu", ".informatics.uci.edu", ".stat.uci.edu"]

/-- `domain.lstrip(".")`. -/
def lstripDot (s : String) : String := String.mk (s.data.dropWhile (fun c => c = '.'))

/-- The DokuWiki trap query parameters of `is_valid`. -/
def dokuwiki_params : List String :=
  ["do=media", "tab_files=", "tab_details=",
   "do=revisions", "do=backlink", "do=recent", "do=index"]

/-- The non-HTML path infixes rejected by `is_valid`. -/
def bad_paths : List String := ["/wp-json/", "/wp-content/uploads/"]

/-- The non-HTML file extensions of `is_valid`'s extension regex, with the
optional groups (`jpe?g`, `tiff?`) expanded. -/
def BAD_EXTENSIONS : List String :=
  ["css", "js", "bmp", "gif", "jpg", "jpeg", "ico", "png", "tif", "tiff",
   "mid", "mp2", "mp3", "mp4", "wav", "avi", "mov", "mpeg", "ram", "m4v",
   "mkv", "ogg", "ogv",
   "pdf", "ps", "eps", "tex", "ppt", "pptx", "doc", "docx", "xls", "xlsx",
   "zip", "rar", "gz", "bz2", "tar", "7z", "tgz",
   "exe", "msi", "bin", "dll", "dmg", "iso", "apk",
   "c", "cc", "cpp", "h", "hpp", "java", "py", "r", "m", "mat", "o",
   "names", "data", "dat", "psd", "epub", "cnf", "sha1", "thmx", "mso",
   "arff", "rtf", "jar", "csv",
   "rm", "smil", "wmv", "swf", "wma", "img", "sql", "ppsx", "odc", "war",
   "db", "lif"]

/-- Model of the extension regex `re.match(r".*\.(…)$", path_lower)`:
the path ends in a dot followed by one of the listed extensions. -/
def hasBadExtension (path : String) : Bool :=
  BAD_EXTENSIONS.any (fun ext => endsWithS path ("." ++ ext))

/-- Model of `re.search(r"(^|[&;])(C|O)=", query)` (case-sensitive, on the
raw query string). -/
def hasSortParam (q : String) : Bool :=
  startsWithS q "C=" || startsWithS q "O=" ||
  containsS q "&C=" || containsS q "&O=" ||
  containsS q ";C=" || containsS q ";O="

/-- The login/admin markers of `is_valid`'s final regex. -/
def login_markers : List String :=
  ["login", "logout", "wp-admin", "wp-login", "action="]

/-- The non-empty path segments of a URL, as in `is_valid`:
`[seg for seg in parsed.path.split("/") if seg]`. -/
def url_path_segments (url : String) : List (List Char) :=
  (splitOnC '/' (urlparse url).path.data).filter (fun seg => !seg.isEmpty)

/-- `scraper.is_valid`, translated rejection rule by rejection rule from
the source: each `if cond: return False` of the early-return chain is the
conjunct `!cond` of this short-circuit conjunction, in source order. -/
def is_valid (url : String) : Bool :=
  (decide ((urlparse url).scheme = "http") ||
    decide ((urlparse url).scheme = "https")) &&
  !(hostnameOf (urlparse url).netloc).isEmpty &&
  (ALLOWED_DOMAINS.any (fun d =>
    decide (hostnameOf (urlparse url).netloc = lstripDot d) ||
    endsWithS (hostnameOf (urlparse url).netloc) d)) &&
  !(containsS (lowerS (urlparse url).query) "replytocom=" ||
    containsS (lowerS (urlparse url).query) "share=") &&
  !(containsS (lowerS (urlparse url).query) "oembed" ||
    containsS (lowerS (urlparse url).query) "format=xml") &&
  !(dokuwiki_params.any (fun p => containsS (lowerS (urlparse url).query) p)) &&
  !(containsS (lowerS (urlparse url).query) "filter%5b" ||
    containsS (lowerS (urlparse url).query) "filter[") &&
  !(endsWithS (lowerS (urlparse url).path) "/feed" ||
    containsS (lowerS (urlparse url).path) "/feed/") &&
  !(endsWithS (lowerS (urlparse url).path) ".xml") &&
  !(bad_paths.any (fun p => containsS (lowerS (urlparse url).path) p)) &&
  !(containsS (hostnameOf (urlparse url).netloc) "gitlab") &&
  !(hasBadExtension (lowerS (urlparse url).path)) &&
  !((containsS (lowerS (urlparse url).path) "calendar" ||
     containsS (lowerS (urlparse url).path) "date" ||
     containsS (lowerS (urlparse url).path) "event") &&
    hasDateSeq (urlparse url).path.data) &&
  !(decide (countSub (lowerS (urlparse url).path) "seminar-series" > 1)) &&
  !(decide (url.length > 200)) &&
  !(decide ((url_path_segments url).length > 10)) &&
  !(decide ((url_path_segments url).length ≠ (url_path_segments url).dedup.length)) &&
  !(hasSortParam (urlparse url).query) &&
  !(login_markers.any (fun mk => containsS (lowerS url) mk))

example : is_valid "https://www.ics.uci.edu/people/" = true := by decide
example : is_valid "https://x.ics.uci.edu/a.pdf" = false := by decide
example : is_valid "http://x.gitlab.ics.uci.edu/foo" = false := by decide
example : is_valid "https://x.ics.uci.edu/a/b/a/b" = false := by decide
example : is_valid "https://x.ics.uci.edu/?do=media" = false := by decide

/-! ## The Frontier (`crawler/frontier.py`) -/

/-- Modelled from the spec: `utils.normalize` is not under `src/`; the spec
describes an external Normalizer that canonicalizes a URL
(scheme/host case folding, default-port removal, trailing-slash policy)
prior to hashing.  We model the trailing-slash policy: a trailing slash is
stripped. -/
def normalize (url : String) : String :=
  if endsWithS url "/" then String.mk (url.data.dropLast) else url

/-- Modelled from the spec: `utils.get_urlhash` is not under `src/`; the
spec describes a stable hash of the normalized URL used as the persisted
store's key.  We model the hash as the string itself (stable and
collision-free). -/
def get_urlhash (url : String) : String := url

/-- Lookup in an insertion-ordered association list (model of a Python
dict read). -/
def assocLookup {α : Type} (k : String) : List (String × α) → Option α
  | [] => none
  | (k', v) :: t => if k' = k then some v else assocLookup k t

/-- Assignment in an insertion-ordered association list: update in place
when the key exists, append otherwise (model of `d[k] = v`). -/
def assocSet {α : Type} (k : String) (v : α) : List (String × α) → List (String × α)
  | [] => [(k, v)]
  | (k', v') :: t => if k' = k then (k, v) :: t else (k', v') :: assocSet k v t

/-- Whether the key is present (model of `k in d`). -/
def hasKey {α : Type} (k : String) (l : List (String × α)) : Bool :=
  l.any (fun p => p.1 = k)

/-- `self.domain_queues[domain].append(url)` on a `defaultdict(deque)`:
append to the existing queue, or create a fresh singleton queue at the
end of the insertion order. -/
def appendToQueue (qs : List (String × List String)) (d url : String) :
    List (String × List String) :=
  match qs with
  | [] => [(d, [url])]
  | (d', q) :: t =>
    if d' = d then (d', q ++ [url]) :: t else (d', q) :: appendToQueue t d url

/-- The frontier's state: per-domain FIFO queues, per-domain last-access
timestamps, the in-flight counter and the persisted store
(hash -> (url, completed)), all insertion-ordered as Python dicts are. -/
structure Frontier where
  domain_queues : List (String × List String)
  last_accessed : List (String × Int)
  active_downloads : Int
  save : List (String × String × Bool)
deriving DecidableEq, Repr

/-- `Frontier.add_url`: normalize, hash; if the hash is unseen, persist
`(url, False)` and append to the URL's netloc queue; otherwise no-op. -/
def add_url (f : Frontier) (url : String) : Frontier :=
  if hasKey (get_urlhash (normalize url)) f.save then f
  else
    { f with
      save := f.save ++ [(get_urlhash (normalize url), normalize url, false)],
      domain_queues := appendToQueue f.domain_queues
        (urlparse (normalize url)).netloc (normalize url) }

/-- `Frontier.mark_url_complete`: record `(url, True)` under the URL's hash
(inserting it when unseen, after logging) and decrement the in-flight
counter unconditionally. -/
def mark_url_complete (f : Frontier) (url : String) : Frontier :=
  { f with
    save := assocSet (get_urlhash url) (url, true) f.save,
    active_downloads := f.active_downloads - 1 }

/-- `Frontier.has_pending_urls`: any non-empty domain queue, else whether
the in-flight counter is positive. -/
def has_pending_urls (f : Frontier) : Bool :=
  if f.domain_queues.any (fun p => p.2.length > 0) then true
  else decide (f.active_downloads > 0)

/-- The scan loop of `Frontier.get_tbd_url` over the domain queues in
insertion order: drop empty queues; at the first domain whose politeness
delay has elapsed, pop its queue head and stop.  Returns the served
(domain, url) if any, and the remaining queues. -/
def scanQueues (now delay : Int) (last : List (String × Int)) :
    List (String × List String) →
      Option (String × String) × List (String × List String)
  | [] => (none, [])
  | (d, q) :: rest =>
    match q with
    | [] => scanQueues now delay last rest
    | url :: qrest =>
      if now - (assocLookup d last).getD 0 ≥ delay then
        (some (d, url), (d, qrest) :: rest)
      else
        match scanQueues now delay last rest with
        | (r, rest') => (r, (d, q) :: rest')

/-- `Frontier.get_tbd_url` at time `now` with politeness delay `delay`:
on a successful pop, record `now` as the served domain's last access and
increment the in-flight counter; otherwise return `none`, with the empty
queues scanned along the way pruned. -/
def get_tbd_url (now delay : Int) (f : Frontier) : Option String × Frontier :=
  match scanQueues now delay f.last_accessed f.domain_queues with
  | (some (d, url), qs) =>
    (some url,
     { f with
       domain_queues := qs,
       last_accessed := assocSet d now f.last_accessed,
       active_downloads := f.active_downloads + 1 })
  | (none, qs) => (none, { f with domain_queues := qs })

/-- `Frontier._parse_save_file`: replay every persisted record that is not
completed and passes `is_valid` into its netloc's queue, in store order. -/
def parse_save_file (save : List (String × String × Bool)) :
    List (String × List String) :=
  save.foldl
    (fun qs entry =>
      if !entry.2.2 && is_valid entry.2.1 then
        appendToQueue qs (urlparse entry.2.1).netloc entry.2.1
      else qs)
    []

/-- `Frontier.__init__` on a non-restart resume: load the save file into
the domain queues via `_parse_save_file`; if the store is empty, add the
seed URLs instead. -/
def frontier_resume (seeds : List String)
    (save : List (String × String × Bool)) : Frontier :=
  let f : Frontier :=
    { domain_queues := parse_save_file save,
      last_accessed := [],
      active_downloads := 0,
      save := save }
  if save.isEmpty then seeds.foldl add_url f else f

/-- All URLs sitting in the domain queues. -/
def queuedUrls (qs : List (String × List String)) : List String :=
  (qs.map Prod.snd).flatten

/-- The number of distinct hashes in the persisted store. -/
def distinctHashCount (save : List (String × String × Bool)) : Nat :=
  (save.map Prod.fst).toFinset.card

/-- The frontier right after a fresh restart with no seeds. -/
def emptyFrontier : Frontier :=
  { domain_queues := [], last_accessed := [], active_downloads := 0, save := [] }

/-- A frontier operation: the three public mutators of `Frontier`
(`get_tbd_url` carries the time at which it is called). -/
inductive FrontierOp where
  | add (url : String)
  | get (now : Int)
  | complete (url : String)
deriving DecidableEq, Repr

/-- Apply one frontier operation. -/
def applyOp (delay : Int) (f : Frontier) : FrontierOp → Frontier
  | .add url => add_url f url
  | .get now => (get_tbd_url now delay f).2
  | .complete url => mark_url_complete f url

/-- Run a sequence of frontier operations. -/
def runOps (delay : Int) (f : Frontier) : List FrontierOp → Frontier
  | [] => f
  | op :: rest => runOps delay (applyOp delay f op) rest

/-- The number of successful pops (`get_tbd_url` calls returning a URL)
along a run. -/
def popCount (delay : Int) (f : Frontier) : List FrontierOp → Nat
  | [] => 0
  | op :: rest =>
    (match op with
     | .get now => if (get_tbd_url now delay f).1.isSome then 1 else 0
     | _ => 0) + popCount delay (applyOp delay f op) rest

/-- The number of `mark_url_complete` calls in a sequence of operations. -/
def completeCount : List FrontierOp → Nat
  | [] => 0
  | .complete _ :: rest => 1 + completeCount rest
  | _ :: rest => completeCount rest

/-! ## The analytics aggregator (`scraper.py` statistics) -/

/-- The stopword set of `scraper.py` (`STOP_WORDS`). -/
def STOP_WORDS : List String :=
  ["a", "about", "above", "after", "again", "against", "all", "am", "an", "and", "any",
   "are", "aren't", "as", "at", "be", "because", "been", "before", "being", "below",
   "between", "both", "but", "by", "can't", "cannot", "could", "couldn't", "did",
   "didn't", "do", "does", "doesn't", "doing", "don't", "down", "during", "each",
   "few", "for", "from", "further", "had", "hadn't", "has", "hasn't", "have",
   "haven't", "having", "he", "he'd", "he'll", "he's", "her", "here", "here's",
   "hers", "herself", "him", "himself", "his", "how", "how's", "i", "i'd", "i'll",
   "i'm", "i've", "if", "in", "into", "is", "isn't", "it", "it's", "its", "itself",
   "let's", "me", "more", "most", "mustn't", "my", "myself", "no", "nor", "not", "of",
   "off", "on", "once", "only", "or", "other", "ought", "our", "ours", "ourselves",
   "out", "over", "own", "same", "shan't", "she", "she'd", "she'll", "she's",
   "should", "shouldn't", "so", "some", "such", "than", "that", "that's", "the",
   "their", "theirs", "them", "themselves", "then", "there", "there's", "these",
   "they", "they'd", "they'll", "they're", "they've", "this", "those", "through",
   "to", "too", "under", "until", "up", "very", "was", "wasn't", "we", "we'd",
   "we'll", "we're", "we've", "were", "weren't", "what", "what's", "when", "when's",
   "where", "where's", "which", "while", "who", "who's", "whom", "why", "why's",
   "with", "won't", "would", "wouldn't", "you", "you'd", "you'll", "you're",
   "you've", "your", "yours", "yourself", "yourselves"]

/-- The markup-junk word set of `scraper.py` (`JUNK_WORDS`). -/
def JUNK_WORDS : List String :=
  ["html", "update", "automatic", "markdown", "rmd", "git",
   "file", "files", "store", "ds", "href", "https", "http",
   "www", "nbsp", "amp", "quot", "lt", "gt"]

/-- The accumulator loop of `scraper._tokenize`: `acc` holds the current
token's characters in reverse. -/
def tokenizeAux : List Char → List Char → List String
  | acc, [] => if acc.isEmpty then [] else [String.mk acc.reverse]
  | acc, c :: t =>
    if c.isAlphanum then tokenizeAux (c.toLower :: acc) t
    else if acc.isEmpty then tokenizeAux [] t
    else String.mk acc.reverse :: tokenizeAux [] t

/-- `scraper._tokenize`: maximal runs of ASCII alphanumeric characters,
lower-cased.  (Lean's `Char.isAlphanum` is exactly the ASCII-alphanumeric
test the source performs with `char.isascii() and char.isalnum()`.) -/
def tokenize (text : String) : List String := tokenizeAux [] text.data

/-- One step of `scraper._compute_word_frequencies`'s dict update:
`frequencies[token] = frequencies.get(token, 0) + 1` on an
insertion-ordered association list. -/
def bump : List (String × Nat) → String → List (String × Nat)
  | [], t => [(t, 1)]
  | (k, v) :: rest, t =>
    if k = t then (k, v + 1) :: rest else (k, v) :: bump rest t

/-- `scraper._compute_word_frequencies`. -/
def compute_word_frequencies (tokens : List String) : List (String × Nat) :=
  tokens.foldl bump []

/-- The token filter of `scraper._record_stats`: length in [2,30], not a
stopword, not a junk word. -/
def filteredTokens (tokens : List String) : List String :=
  tokens.filter (fun token =>
    2 ≤ token.length && token.length ≤ 30 &&
    !STOP_WORDS.contains token && !JUNK_WORDS.contains token)

/-- The analytics state of `scraper.py`: the unique-page set, the global
word-frequency Counter (a total function, absent words count 0), the
longest-page record and the per-subdomain page sets. -/
structure Stats where
  unique_pages : List String
  word_counts : String → Nat
  longest_page : String × Nat
  subdomain_pages : List (String × List String)

/-- The statistics at crawl start. -/
def initStats : Stats :=
  { unique_pages := [], word_counts := fun _ => 0,
    longest_page := ("", 0), subdomain_pages := [] }

/-- `subdomain_pages[hostname].add(clean_url)` on a `defaultdict(set)`. -/
def addToSet (l : List (String × List String)) (k v : String) :
    List (String × List String) :=
  match l with
  | [] => [(k, [v])]
  | (k', s) :: t =>
    if k' = k then (k', if s.contains v then s else s ++ [v]) :: t
    else (k', s) :: addToSet t k v

/-- `PER_PAGE_CAP` from `scraper._record_stats`. -/
def PER_PAGE_CAP : Nat := 10

/-- `scraper._record_stats` on a page's URL and extracted visible text
(visible-text extraction is the external Parser's job per the spec; the
statistics update is modelled from where the text has been obtained):
defragment the URL, tokenize, drop the page when fewer than 50 tokens,
otherwise add the page to the unique-page set and its `.uci.edu`
subdomain's set, update the longest page on a strictly larger raw token
count, and add each filtered token's per-page count, capped at
`PER_PAGE_CAP`, to the global word counter. -/
def record_stats (url text : String) (s : Stats) : Stats :=
  if (tokenize text).length < 50 then s
  else
    { unique_pages :=
        if s.unique_pages.contains (urldefrag url) then s.unique_pages
        else s.unique_pages ++ [urldefrag url],
      subdomain_pages :=
        if endsWithS (hostnameOf (urlparse (urldefrag url)).netloc) ".uci.edu" ||
            hostnameOf (urlparse (urldefrag url)).netloc = "uci.edu" then
          addToSet s.subdomain_pages
            (hostnameOf (urlparse (urldefrag url)).netloc) (urldefrag url)
        else s.subdomain_pages,
      longest_page :=
        if s.longest_page.2 < (tokenize text).length then
          (urldefrag url, (tokenize text).length)
        else s.longest_page,
      word_counts :=
        (compute_word_frequencies (filteredTokens (tokenize text))).foldl
          (fun wc p => fun t => if t = p.1 then wc t + min p.2 PER_PAGE_CAP else wc t)
          s.word_counts }

/-- Record one `(url, visible text)` page event. -/
def record_page (s : Stats) (page : String × String) : Stats :=
  record_stats page.1 page.2 s

/-- The statistics after recording a sequence of pages, from crawl start. -/
def run_pages (pages : List (String × String)) : Stats :=
  pages.foldl record_page initStats

/-- What one page's visible text contributes to the global count of
`token`: nothing when the page is discarded by the 50-token low-content
filter, otherwise its per-page filtered count capped at `PER_PAGE_CAP`
(0 when the page does not contain the token). -/
def page_contribution (token text : String) : Nat :=
  if (tokenize text).length < 50 then 0
  else min ((filteredTokens (tokenize text)).count token) PER_PAGE_CAP

/-! ## The worker loop (`crawler/worker.py`, `scraper.scraper`) -/

/-- The fields of the fetcher's inner raw response that
`scraper.extract_next_links` reads: `content` is `none` when the attribute
is missing (the `AttributeError` branch), `url` is the final URL. -/
structure RawResponse where
  url : Option String
  content : Option String
  content_type : Option String
deriving DecidableEq, Repr

/-- The fetcher's response descriptor: a status code and an optional raw
response. -/
structure Response where
  status : Int
  raw_response : Option RawResponse
deriving DecidableEq, Repr

/-- The last path component's directory part, used to resolve relative
references: everything up to and including the last `/`. -/
def dirnameOf (path : String) : String :=
  String.mk ((path.data.reverse.dropWhile (fun c => c ≠ '/')).reverse)

/-- Model of `urllib.parse.urljoin` for the cases this crawler meets: an
absolute reference wins, a `//`-reference keeps the scheme, a rooted
reference keeps scheme and netloc, a relative reference resolves against
the base path's directory (RFC 3986 dot-segment removal is not modelled;
no claim depends on it). -/
def urljoin (base rel : String) : String :=
  if rel.isEmpty then base
  else if !(urlparse rel).scheme.isEmpty then rel
  else if startsWithS rel "//" then (urlparse base).scheme ++ ":" ++ rel
  else if startsWithS rel "/" then
    (urlparse base).scheme ++ "://" ++ (urlparse base).netloc ++ rel
  else
    (urlparse base).scheme ++ "://" ++ (urlparse base).netloc ++
      dirnameOf (urlparse base).path ++ rel

/-- `scraper.extract_next_links`.  HTML anchor enumeration is the external
Parser's capability per the spec, passed in as `parse_anchors` (the href
list of `soup.find_all("a", href=True)`); the analytics side effect on
HTML pages is modelled separately by `record_stats`.  Returns `[]` for a
non-200 status, a missing raw response, a missing content attribute or
empty content; otherwise resolves each navigational href against the
response's final URL and strips fragments. -/
def extract_next_links (parse_anchors : String → List String)
    (url : String) (resp : Response) : List String :=
  if resp.status ≠ 200 then []
  else
    match resp.raw_response with
    | none => []
    | some raw =>
      match raw.content with
      | none => []
      | some content =>
        if content.isEmpty then []
        else
          (parse_anchors content).filterMap (fun href0 =>
            let href := href0.trim
            if href.isEmpty || startsWithS href "javascript:" ||
                startsWithS href "mailto:" || startsWithS href "tel:" ||
                startsWithS href "#" then none
            else
              some (urldefrag (urljoin
                (match raw.url with
                 | some u => if u.isEmpty then url else u
                 | none => url) href)))

/-- `scraper.scraper`: extracted links filtered through `is_valid`. -/
def scraper_links (parse_anchors : String → List String)
    (url : String) (resp : Response) : List String :=
  (extract_next_links parse_anchors url resp).filter is_valid

/-- The body of one `Worker.run` iteration after a URL was obtained:
scrape the response, `add_url` every scraped link, then
`mark_url_complete` the fetched URL exactly once. -/
def worker_process_url (parse_anchors : String → List String)
    (f : Frontier) (url : String) (resp : Response) : Frontier :=
  mark_url_complete
    ((scraper_links parse_anchors url resp).foldl add_url f) url

/-- Whether a response is a failed fetch as §7 describes it: a non-200
status, or an absent or empty body. -/
def failedResponse (resp : Response) : Bool :=
  resp.status ≠ 200 ||
    match resp.raw_response with
    | none => true
    | some raw =>
      match raw.content with
      | none => true
      | some content => content.isEmpty

/-- The domain whose queue `get_tbd_url` would serve at time `now` (the
queue key at which the scan stops), if any. -/
def served_domain (now delay : Int) (f : Frontier) : Option String :=
  (scanQueues now delay f.last_accessed f.domain_queues).1.map Prod.fst

/-! ## Helper lemmas -/

theorem hasKey_append_self {α : Type} (k : String) (v : α) (l : List (String × α)) :
    hasKey k (l ++ [(k, v)]) = true := by
  simp [hasKey]

theorem scanQueues_none (now delay : Int) (last : List (String × Int)) :
    ∀ qs qs', scanQueues now delay last qs = (none, qs') →
      qs' = qs.filter (fun p => !p.2.isEmpty) := by
  intro qs
  induction qs with
  | nil => intro qs' h; simpa [scanQueues] using h.symm
  | cons hd rest ih =>
    intro qs' h
    obtain ⟨d, q⟩ := hd
    match q with
    | [] =>
      simp only [scanQueues] at h
      simpa [List.filter] using ih qs' h
    | url :: qrest =>
      simp only [scanQueues] at h
      by_cases hready : now - (assocLookup d last).getD 0 ≥ delay
      · rw [if_pos hready] at h
        exact absurd (congrArg Prod.fst h) (by simp)
      · rw [if_neg hready] at h
        cases hsc : scanQueues now delay last rest with
        | mk r rest' =>
          rw [hsc] at h
          cases r with
          | some p => exact absurd (congrArg Prod.fst h) (by simp)
          | none =>
            have h2 := congrArg Prod.snd h
            simp only at h2
            subst h2
            simp [List.filter, ih rest' hsc]

theorem scanQueues_some (now delay : Int) (last : List (String × Int)) :
    ∀ qs d url qs', scanQueues now delay last qs = (some (d, url), qs') →
      (∃ qrest, (d, url :: qrest) ∈ qs) ∧
        now - (assocLookup d last).getD 0 ≥ delay := by
  intro qs
  induction qs with
  | nil => intro d url qs' h; simp [scanQueues] at h
  | cons hd rest ih =>
    intro d url qs' h
    obtain ⟨d', q⟩ := hd
    match q with
    | [] =>
      simp only [scanQueues] at h
      obtain ⟨⟨qrest, hmem⟩, hready⟩ := ih d url qs' h
      exact ⟨⟨qrest, List.mem_cons_of_mem _ hmem⟩, hready⟩
    | u :: qrest =>
      simp only [scanQueues] at h
      by_cases hready : now - (assocLookup d' last).getD 0 ≥ delay
      · rw [if_pos hready] at h
        have h1 := congrArg Prod.fst h
        simp only at h1
        obtain ⟨hd, hu⟩ : d' = d ∧ u = url := by
          have := Option.some.inj h1
          exact ⟨congrArg Prod.fst this, congrArg Prod.snd this⟩
        subst hd; subst hu
        exact ⟨⟨qrest, List.mem_cons_self _ _⟩, hready⟩
      · rw [if_neg hready] at h
        cases hsc : scanQueues now delay last rest with
        | mk r rest' =>
          rw [hsc] at h
          have h1 := congrArg Prod.fst h
          simp only at h1
          subst h1
          obtain ⟨⟨qr, hmem⟩, hr⟩ := ih d url rest' hsc
          exact ⟨⟨qr, List.mem_cons_of_mem _ hmem⟩, hr⟩

theorem assocLookup_assocSet_self {α : Type} (k : String) (v : α)
    (l : List (String × α)) : assocLookup k (assocSet k v l) = some v := by
  induction l with
  | nil => simp [assocSet, assocLookup]
  | cons hd t ih =>
    obtain ⟨k', v'⟩ := hd
    by_cases hk : k' = k
    · simp [assocSet, hk, assocLookup]
    · simp [assocSet, hk, assocLookup, ih]

/-! ## The claims -/

/-- C4: for every frontier state (whose in-flight counter is a
non-negative integer, as the spec's data model declares),
`has_pending_urls()` returns `false` if and only if every domain queue is
empty and the in-flight counter equals zero. -/
theorem has_pending_urls_false_iff (f : Frontier)
    (h : 0 ≤ f.active_downloads) :
    has_pending_urls f = false ↔
      ((∀ p ∈ f.domain_queues, p.2 = []) ∧ f.active_downloads = 0) := by
  unfold has_pending_urls
  by_cases hq : f.domain_queues.any (fun p => p.2.length > 0) = true
  · rw [if_pos hq]
    simp only [List.any_eq_true, decide_eq_true_eq] at hq
    obtain ⟨p, hp, hlen⟩ := hq
    constructor
    · intro habs; exact absurd habs (by simp)
    · rintro ⟨hall, -⟩
      have := hall p hp
      rw [this] at hlen
      exact absurd hlen (by simp)
  · rw [if_neg hq]
    have hq2 : f.domain_queues.any (fun p => p.2.length > 0) = false := by
      simpa using hq
    have hq' := List.any_eq_false.mp hq2
    constructor
    · intro hdec
      refine ⟨fun p hp => ?_, ?_⟩
      · have hnp := hq' p hp
        simp only [decide_eq_true_eq] at hnp
        have hlen : p.2.length = 0 := by omega
        exact List.length_eq_zero.mp hlen
      · have hnpos : ¬ (0 < f.active_downloads) := by
          intro hpos
          rw [decide_eq_true hpos] at hdec
          exact absurd hdec (by simp)
        omega
    · rintro ⟨-, hzero⟩
      have hnpos : ¬ (0 < f.active_downloads) := by omega
      simp [hnpos]

/-- C4 witness: the claim's hypothesis and conclusion hold at the
freshly restarted frontier. -/
theorem has_pending_urls_false_iff_witness :
    (0 : Int) ≤ emptyFrontier.active_downloads ∧
      has_pending_urls emptyFrontier = false :=
  ⟨by decide,
   (has_pending_urls_false_iff emptyFrontier (by decide)).mpr
     ⟨by simp [emptyFrontier], rfl⟩⟩

/-- C9: a page whose extracted visible text tokenizes into fewer than 50
tokens leaves the unique-page set, the global word-frequency table, the
longest-page record and the per-subdomain page sets all unchanged. -/
theorem record_stats_low_content (url text : String) (s : Stats)
    (h : (tokenize text).length < 50) :
    (record_stats url text s).unique_pages = s.unique_pages ∧
    (record_stats url text s).word_counts = s.word_counts ∧
    (record_stats url text s).longest_page = s.longest_page ∧
    (record_stats url text s).subdomain_pages = s.subdomain_pages := by
  unfold record_stats
  rw [if_pos h]
  exact ⟨rfl, rfl, rfl, rfl⟩

/-- C9 witness: a concrete two-token page is discarded without touching
the statistics. -/
theorem record_stats_low_content_witness :
    (tokenize "hello world").length < 50 ∧
    (record_stats "https://www.ics.uci.edu/a" "hello world" initStats).unique_pages
      = initStats.unique_pages :=
  ⟨by decide,
   (record_stats_low_content "https://www.ics.uci.edu/a" "hello world" initStats
     (by decide)).1⟩

/-- C10: when `get_tbd_url` returns `None` it changes neither the
in-flight counter, nor the last-access timestamps, nor the persisted
store, and removes no URL from any queue: the only state change is the
pruning of domains whose queues are already empty. -/
theorem get_tbd_url_none_frame (now delay : Int) (f f' : Frontier)
    (h : get_tbd_url now delay f = (none, f')) :
    f'.active_downloads = f.active_downloads ∧
    f'.last_accessed = f.last_accessed ∧
    f'.save = f.save ∧
    f'.domain_queues = f.domain_queues.filter (fun p => !p.2.isEmpty) := by
  unfold get_tbd_url at h
  cases hs : scanQueues now delay f.last_accessed f.domain_queues with
  | mk r qs =>
    rw [hs] at h
    cases r with
    | some p =>
      obtain ⟨d, u⟩ := p
      exact absurd (congrArg Prod.fst h) (by simp)
    | none =>
      have h2 := congrArg Prod.snd h
      simp only at h2
      subst h2
      exact ⟨rfl, rfl, rfl,
        scanQueues_none now delay f.last_accessed f.domain_queues qs hs⟩

/-- C10 witness: with one empty queue and one domain still in cooldown,
`get_tbd_url` returns `None`, prunes only the empty queue and leaves
counter, clock and store untouched. -/
theorem get_tbd_url_none_frame_witness :
    get_tbd_url 10 5
        { domain_queues := [("e", []), ("d", ["u"])],
          last_accessed := [("d", 10)], active_downloads := 0, save := [] }
      = (none,
         { domain_queues := [("d", ["u"])],
           last_accessed := [("d", 10)], active_downloads := 0, save := [] }) ∧
    ({ domain_queues := [("d", ["u"])],
       last_accessed := [("d", 10)], active_downloads := 0,
       save := [] } : Frontier).domain_queues
      = List.filter (fun p => !p.2.isEmpty)
          [("e", ([] : List String)), ("d", ["u"])] :=
  ⟨by decide,
   (get_tbd_url_none_frame 10 5
     { domain_queues := [("e", []), ("d", ["u"])],
       last_accessed := [("d", 10)], active_downloads := 0, save := [] }
     { domain_queues := [("d", ["u"])],
       last_accessed := [("d", 10)], active_downloads := 0, save := [] }
     (by decide)).2.2.2⟩

/-- C6: `add_url` is idempotent on the normalized URL: when two URLs
normalize to the same string, adding both increases the distinct-hash
count of the persisted store by at most one, and the second call changes
nothing at all. -/
theorem add_url_idempotent_dedup (f : Frontier) (u1 u2 : String)
    (h : normalize u1 = normalize u2) :
    add_url (add_url f u1) u2 = add_url f u1 ∧
    distinctHashCount (add_url f u1).save ≤ distinctHashCount f.save + 1 := by
  have hh : get_urlhash (normalize u2) = get_urlhash (normalize u1) := by rw [h]
  by_cases hk : hasKey (get_urlhash (normalize u1)) f.save = true
  · have e1 : add_url f u1 = f := by unfold add_url; rw [if_pos hk]
    constructor
    · rw [e1]
      unfold add_url
      rw [hh, if_pos hk]
    · rw [e1]
      exact Nat.le_succ _
  · have e1 : add_url f u1 =
        { f with
          save := f.save ++ [(get_urlhash (normalize u1), normalize u1, false)],
          domain_queues := appendToQueue f.domain_queues
            (urlparse (normalize u1)).netloc (normalize u1) } := by
      unfold add_url; rw [if_neg hk]
    constructor
    · rw [e1]
      unfold add_url
      rw [hh]
      rw [if_pos (hasKey_append_self _ _ _)]
    · rw [e1]
      unfold distinctHashCount
      simp only [List.map_append, List.toFinset_append, List.map_cons,
        List.map_nil]
      calc ((f.save.map Prod.fst).toFinset ∪
              ([get_urlhash (normalize u1)] : List String).toFinset).card
          ≤ (f.save.map Prod.fst).toFinset.card +
              ([get_urlhash (normalize u1)] : List String).toFinset.card :=
            Finset.card_union_le _ _
        _ ≤ (f.save.map Prod.fst).toFinset.card + 1 := by simp

/-- C6 witness: two spellings of the same normalized URL, added to the
fresh frontier. -/
theorem add_url_idempotent_dedup_witness :
    normalize "https://www.ics.uci.edu/a/" = normalize "https://www.ics.uci.edu/a" ∧
    add_url (add_url emptyFrontier "https://www.ics.uci.edu/a/")
        "https://www.ics.uci.edu/a"
      = add_url emptyFrontier "https://www.ics.uci.edu/a/" :=
  ⟨by decide,
   (add_url_idempotent_dedup emptyFrontier "https://www.ics.uci.edu/a/"
     "https://www.ics.uci.edu/a" (by decide)).1⟩

/-- C7: for a response whose status is not 200 or whose body is absent or
empty, `extract_next_links` returns no links, and the worker's iteration
is exactly one `mark_url_complete` of the fetched URL — no retry, no
`add_url`. -/
theorem failed_fetch_no_retry (pa : String → List String) (f : Frontier)
    (url : String) (resp : Response) (h : failedResponse resp = true) :
    extract_next_links pa url resp = [] ∧
    worker_process_url pa f url resp = mark_url_complete f url := by
  obtain ⟨st, rawOpt⟩ := resp
  have hext : extract_next_links pa url ⟨st, rawOpt⟩ = [] := by
    by_cases hst : st = 200
    · subst hst
      cases rawOpt with
      | none => simp [extract_next_links]
      | some raw =>
        cases hc : raw.content with
        | none => simp [extract_next_links, hc]
        | some s =>
          have hs : s.isEmpty = true := by
            simp only [failedResponse, hc] at h
            simpa using h
          simp [extract_next_links, hc, hs]
    · simp [extract_next_links, hst]
  refine ⟨hext, ?_⟩
  unfold worker_process_url scraper_links
  rw [hext]
  rfl

/-- C7 witness: a 404 response on the fresh frontier. -/
theorem failed_fetch_no_retry_witness :
    failedResponse { status := 404, raw_response := none } = true ∧
    worker_process_url (fun _ => ["https://www.ics.uci.edu/x"]) emptyFrontier
        "https://www.ics.uci.edu/a" { status := 404, raw_response := none }
      = mark_url_complete emptyFrontier "https://www.ics.uci.edu/a" :=
  ⟨by decide,
   (failed_fetch_no_retry (fun _ => ["https://www.ics.uci.edu/x"]) emptyFrontier
     "https://www.ics.uci.edu/a" { status := 404, raw_response := none }
     (by decide)).2⟩

theorem add_url_active (f : Frontier) (url : String) :
    (add_url f url).active_downloads = f.active_downloads := by
  unfold add_url
  split <;> rfl

theorem get_tbd_url_active (now delay : Int) (f : Frontier) :
    ((get_tbd_url now delay f).2).active_downloads =
      f.active_downloads +
        (if (get_tbd_url now delay f).1.isSome then 1 else 0) := by
  unfold get_tbd_url
  cases hs : scanQueues now delay f.last_accessed f.domain_queues with
  | mk r qs =>
    cases r with
    | none => simp
    | some p => obtain ⟨d, u⟩ := p; simp

theorem mark_url_complete_active (f : Frontier) (url : String) :
    (mark_url_complete f url).active_downloads = f.active_downloads - 1 := rfl

theorem runOps_active (delay : Int) :
    ∀ ops (f : Frontier), (runOps delay f ops).active_downloads =
      f.active_downloads + (popCount delay f ops : Int)
        - (completeCount ops : Int) := by
  intro ops
  induction ops with
  | nil => intro f; simp [runOps, popCount, completeCount]
  | cons op rest ih =>
    intro f
    cases op with
    | add url =>
      have hstep := ih (applyOp delay f (.add url))
      simp only [runOps, popCount, completeCount] at hstep ⊢
      rw [hstep]
      have : (applyOp delay f (.add url)).active_downloads
          = f.active_downloads := add_url_active f url
      rw [this]
      push_cast
      ring
    | get now =>
      have hstep := ih (applyOp delay f (.get now))
      simp only [runOps, popCount, completeCount] at hstep ⊢
      rw [hstep]
      have hact : (applyOp delay f (.get now)).active_downloads
          = f.active_downloads +
            (if (get_tbd_url now delay f).1.isSome then 1 else 0) :=
        get_tbd_url_active now delay f
      rw [hact]
      by_cases hsome : (get_tbd_url now delay f).1.isSome = true
      · simp only [hsome, if_true]
        push_cast
        ring
      · simp only [hsome, if_false]
        push_cast
        ring
    | complete url =>
      have hstep := ih (applyOp delay f (.complete url))
      simp only [runOps, popCount, completeCount] at hstep ⊢
      rw [hstep]
      have : (applyOp delay f (.complete url)).active_downloads
          = f.active_downloads - 1 := mark_url_complete_active f url
      rw [this]
      push_cast
      ring

/-- C2 (amended): `active_downloads` changes only as the claim describes —
unchanged by `add_url`, incremented exactly on a successful pop in
`get_tbd_url`, decremented by every `mark_url_complete` — and along any
operation sequence from the fresh frontier in which completions do not
outnumber successful pops (each completion matching a prior pop, as the
worker protocol guarantees) the counter stays non-negative.  Without that
protocol restriction the unconditional decrement of `mark_url_complete`
can drive it negative. -/
theorem active_downloads_protocol (delay : Int) :
    (∀ (f : Frontier) url, (add_url f url).active_downloads
        = f.active_downloads) ∧
    (∀ (now : Int) (f : Frontier),
        ((get_tbd_url now delay f).2).active_downloads
          = f.active_downloads +
              (if (get_tbd_url now delay f).1.isSome then 1 else 0)) ∧
    (∀ (f : Frontier) url, (mark_url_complete f url).active_downloads
        = f.active_downloads - 1) ∧
    (∀ ops, (completeCount ops : Int) ≤ (popCount delay emptyFrontier ops : Int) →
        0 ≤ (runOps delay emptyFrontier ops).active_downloads) := by
  refine ⟨add_url_active, fun now f => get_tbd_url_active now delay f,
    mark_url_complete_active, fun ops hbal => ?_⟩
  rw [runOps_active delay ops emptyFrontier]
  have h0 : emptyFrontier.active_downloads = 0 := rfl
  rw [h0]
  omega

/-- C2 witness: add one URL, pop it, complete it — one completion against
one successful pop, and the counter ends at zero. -/
theorem active_downloads_protocol_witness :
    (completeCount [FrontierOp.add "https://www.ics.uci.edu/a",
        FrontierOp.get 5, FrontierOp.complete "https://www.ics.uci.edu/a"] : Int)
      ≤ (popCount 1 emptyFrontier [FrontierOp.add "https://www.ics.uci.edu/a",
          FrontierOp.get 5, FrontierOp.complete "https://www.ics.uci.edu/a"] : Int) ∧
    0 ≤ (runOps 1 emptyFrontier [FrontierOp.add "https://www.ics.uci.edu/a",
        FrontierOp.get 5,
        FrontierOp.complete "https://www.ics.uci.edu/a"]).active_downloads :=
  ⟨by decide,
   (active_downloads_protocol 1).2.2.2
     [FrontierOp.add "https://www.ics.uci.edu/a", FrontierOp.get 5,
      FrontierOp.complete "https://www.ics.uci.edu/a"] (by decide)⟩

/-- C2 counterexample: a `mark_url_complete` with no prior pop is a legal
operation sequence and drives the in-flight counter to −1, so the claim
as stated — non-negativity over every operation sequence — is false. -/
theorem active_downloads_negative_counterexample :
    (runOps 1 emptyFrontier [FrontierOp.complete "u"]).active_downloads < 0 := by
  decide

/-- C3: a successful `get_tbd_url` at time `now` serves a URL from the
head of some domain `d`'s queue only when `now` minus `d`'s recorded
last-access time is at least the politeness delay; it then stamps `d`'s
last access with `now` and increments the in-flight counter, and (the
whole call being one atomic step under the frontier lock) any further
successful call serving the same domain must come at least one politeness
delay later. -/
theorem get_tbd_url_politeness (now delay : Int) (f : Frontier)
    (url : String) (f' : Frontier)
    (h : get_tbd_url now delay f = (some url, f')) :
    ∃ d, served_domain now delay f = some d ∧
      (∃ qrest, (d, url :: qrest) ∈ f.domain_queues) ∧
      now - (assocLookup d f.last_accessed).getD 0 ≥ delay ∧
      assocLookup d f'.last_accessed = some now ∧
      f'.active_downloads = f.active_downloads + 1 ∧
      (∀ (now2 : Int) (url2 : String) (f2 : Frontier),
        get_tbd_url now2 delay f' = (some url2, f2) →
        served_domain now2 delay f' = some d → now2 - now ≥ delay) := by
  unfold get_tbd_url at h
  cases hs : scanQueues now delay f.last_accessed f.domain_queues with
  | mk r qs =>
    rw [hs] at h
    cases r with
    | none => exact absurd (congrArg Prod.fst h) (by simp)
    | some p =>
      obtain ⟨d, u⟩ := p
      have hu : u = url := by
        have h1 := congrArg Prod.fst h
        simpa using h1
      subst hu
      have hf' : f' =
          { f with
            domain_queues := qs,
            last_accessed := assocSet d now f.last_accessed,
            active_downloads := f.active_downloads + 1 } := by
        have h2 := congrArg Prod.snd h
        simpa using h2.symm
      obtain ⟨⟨qrest, hmem⟩, hready⟩ :=
        scanQueues_some now delay f.last_accessed f.domain_queues d u qs hs
      refine ⟨d, ?_, ⟨qrest, hmem⟩, hready, ?_, ?_, ?_⟩
      · unfold served_domain
        rw [hs]
        rfl
      · rw [hf']
        exact assocLookup_assocSet_self d now f.last_accessed
      · rw [hf']
      · intro now2 url2 f2 h2 hd2
        unfold get_tbd_url at h2
        cases hs2 : scanQueues now2 delay f'.last_accessed f'.domain_queues with
        | mk r2 qs2 =>
          rw [hs2] at h2
          cases r2 with
          | none => exact absurd (congrArg Prod.fst h2) (by simp)
          | some p2 =>
            obtain ⟨d2, u2⟩ := p2
            have hd2' : d2 = d := by
              unfold served_domain at hd2
              rw [hs2] at hd2
              simpa using hd2
            subst hd2'
            obtain ⟨-, hready2⟩ :=
              scanQueues_some now2 delay f'.last_accessed f'.domain_queues
                d2 u2 qs2 hs2
            rw [hf', assocLookup_assocSet_self] at hready2
            simpa using hready2

/-- C3 witness: one domain, never accessed, served at time 10 with delay
1; the returned state carries the new timestamp and counter. -/
theorem get_tbd_url_politeness_witness :
    get_tbd_url 10 1
        { domain_queues := [("d", ["u1", "u2"])], last_accessed := [],
          active_downloads := 0, save := [] }
      = (some "u1",
         { domain_queues := [("d", ["u2"])], last_accessed := [("d", 10)],
           active_downloads := 1, save := [] }) ∧
    ({ domain_queues := [("d", ["u2"])], last_accessed := [("d", 10)],
       active_downloads := 1, save := [] } : Frontier).active_downloads
      = ({ domain_queues := [("d", ["u1", "u2"])], last_accessed := [],
           active_downloads := 0, save := [] } : Frontier).active_downloads + 1 := by
  refine ⟨by decide, ?_⟩
  obtain ⟨d, -, -, -, -, hact, -⟩ :=
    get_tbd_url_politeness 10 1
      { domain_queues := [("d", ["u1", "u2"])], last_accessed := [],
        active_downloads := 0, save := [] }
      "u1"
      { domain_queues := [("d", ["u2"])], last_accessed := [("d", 10)],
        active_downloads := 1, save := [] }
      (by decide)
  exact hact

theorem mem_queuedUrls (qs : List (String × List String)) (x : String) :
    x ∈ queuedUrls qs ↔ ∃ p ∈ qs, x ∈ p.2 := by
  simp only [queuedUrls, List.mem_flatten, List.mem_map]
  constructor
  · rintro ⟨l, ⟨p, hp, rfl⟩, hx⟩
    exact ⟨p, hp, hx⟩
  · rintro ⟨p, hp, hx⟩
    exact ⟨p.2, ⟨p, hp, rfl⟩, hx⟩

theorem mem_queuedUrls_appendToQueue (qs : List (String × List String))
    (d u x : String) :
    x ∈ queuedUrls (appendToQueue qs d u) ↔ x ∈ queuedUrls qs ∨ x = u := by
  simp only [mem_queuedUrls]
  induction qs with
  | nil => simp [appendToQueue]
  | cons hd t ih =>
    obtain ⟨d', q⟩ := hd
    by_cases hdd : d' = d
    · simp only [appendToQueue, if_pos hdd, List.mem_cons]
      constructor
      · rintro ⟨p, hp | hp, hx⟩
        · subst hp
          simp only [List.mem_append, List.mem_singleton] at hx
          rcases hx with hx | hx
          · exact Or.inl ⟨(d', q), Or.inl rfl, hx⟩
          · exact Or.inr hx
        · exact Or.inl ⟨p, Or.inr hp, hx⟩
      · rintro (⟨p, hp | hp, hx⟩ | hx)
        · subst hp
          exact ⟨(d', q ++ [u]), Or.inl rfl, by simp [hx]⟩
        · exact ⟨p, Or.inr hp, hx⟩
        · exact ⟨(d', q ++ [u]), Or.inl rfl, by simp [hx]⟩
    · simp only [appendToQueue, if_neg hdd, List.mem_cons]
      constructor
      · rintro ⟨p, hp | hp, hx⟩
        · subst hp
          exact Or.inl ⟨(d', q), Or.inl rfl, hx⟩
        · rcases ih.mp ⟨p, hp, hx⟩ with hin | hu
          · obtain ⟨p', hp', hx'⟩ := hin
            exact Or.inl ⟨p', Or.inr hp', hx'⟩
          · exact Or.inr hu
      · rintro (⟨p, hp | hp, hx⟩ | hx)
        · subst hp
          exact ⟨(d', q), Or.inl rfl, hx⟩
        · obtain ⟨p', hp', hx'⟩ := ih.mpr (Or.inl ⟨p, hp, hx⟩)
          exact ⟨p', Or.inr hp', hx'⟩
        · obtain ⟨p', hp', hx'⟩ := ih.mpr (Or.inr hx)
          exact ⟨p', Or.inr hp', hx'⟩

theorem parse_save_fold (x : String) :
    ∀ (save : List (String × String × Bool)) (qs : List (String × List String)),
      x ∈ queuedUrls (save.foldl
        (fun qs entry =>
          if !entry.2.2 && is_valid entry.2.1 then
            appendToQueue qs (urlparse entry.2.1).netloc entry.2.1
          else qs) qs) ↔
      x ∈ queuedUrls qs ∨
        ((∃ hsh, (hsh, x, false) ∈ save) ∧ is_valid x = true) := by
  intro save
  induction save with
  | nil => intro qs; simp
  | cons e rest ih =>
    intro qs
    obtain ⟨h0, u0, c0⟩ := e
    simp only [List.foldl_cons]
    rw [ih]
    by_cases hstep : (!c0 && is_valid u0) = true
    · rw [if_pos hstep]
      rw [mem_queuedUrls_appendToQueue]
      simp only [Bool.and_eq_true, Bool.not_eq_true'] at hstep
      obtain ⟨hc0, hval⟩ := hstep
      subst hc0
      constructor
      · rintro ((hq | hx) | ⟨⟨hsh, hmem⟩, hv⟩)
        · exact Or.inl hq
        · subst hx
          exact Or.inr ⟨⟨h0, List.mem_cons_self _ _⟩, hval⟩
        · exact Or.inr ⟨⟨hsh, List.mem_cons_of_mem _ hmem⟩, hv⟩
      · rintro (hq | ⟨⟨hsh, hmem⟩, hv⟩)
        · exact Or.inl (Or.inl hq)
        · rcases List.mem_cons.mp hmem with heq | hmem'
          · have hxu : x = u0 := congrArg (fun t => t.2.1) heq
            exact Or.inl (Or.inr hxu)
          · exact Or.inr ⟨⟨hsh, hmem'⟩, hv⟩
    · rw [if_neg hstep]
      constructor
      · rintro (hq | ⟨⟨hsh, hmem⟩, hv⟩)
        · exact Or.inl hq
        · exact Or.inr ⟨⟨hsh, List.mem_cons_of_mem _ hmem⟩, hv⟩
      · rintro (hq | ⟨⟨hsh, hmem⟩, hv⟩)
        · exact Or.inl hq
        · rcases List.mem_cons.mp hmem with heq | hmem'
          · exfalso
            have hxu : x = u0 := congrArg (fun t => t.2.1) heq
            have hcc : c0 = false := (congrArg (fun t => t.2.2) heq).symm
            subst hxu
            subst hcc
            simp [hv] at hstep
          · exact Or.inr ⟨⟨hsh, hmem'⟩, hv⟩

/-- C1 (amended): on a non-restart resume from a non-empty store, the
rehydrated pending set equals the set of persisted records whose
completed flag is false AND that still pass `is_valid` — `_parse_save_file`
re-validates every record through the trap detector, so stale records
that fail `is_valid` are dropped rather than re-queued. -/
theorem frontier_resume_pending (seeds : List String)
    (save : List (String × String × Bool)) (url : String)
    (hne : save ≠ []) :
    url ∈ queuedUrls (frontier_resume seeds save).domain_queues ↔
      ((∃ hsh, (hsh, url, false) ∈ save) ∧ is_valid url = true) := by
  have hemp : save.isEmpty = false := by
    cases save with
    | nil => exact absurd rfl hne
    | cons a t => rfl
  unfold frontier_resume
  rw [hemp]
  simp only [Bool.false_eq_true, if_false]
  have := parse_save_fold url save []
  unfold parse_save_file
  rw [this]
  simp [queuedUrls]

/-- C1 witness: a store holding one incomplete, still-valid record and one
completed record rehydrates exactly the incomplete one. -/
theorem frontier_resume_pending_witness :
    (([("h1", "https://www.ics.uci.edu/a", false),
       ("h2", "https://www.ics.uci.edu/b", true)] :
        List (String × String × Bool)) ≠ []) ∧
    "https://www.ics.uci.edu/a" ∈
      queuedUrls (frontier_resume ["https://seed.ics.uci.edu/"]
        [("h1", "https://www.ics.uci.edu/a", false),
         ("h2", "https://www.ics.uci.edu/b", true)]).domain_queues :=
  ⟨by decide,
   (frontier_resume_pending ["https://seed.ics.uci.edu/"]
     [("h1", "https://www.ics.uci.edu/a", false),
      ("h2", "https://www.ics.uci.edu/b", true)]
     "https://www.ics.uci.edu/a" (by decide)).mpr
     ⟨⟨"h1", by decide⟩, by decide⟩⟩

/-- C1 counterexample: a persisted record with `completed = false` whose
URL fails `is_valid` (a `.pdf`) is NOT replayed into any domain queue, so
the pending set is not exactly the set of incomplete records. -/
theorem frontier_resume_pending_counterexample :
    ("h0", "https://www.ics.uci.edu/a.pdf", false)
        ∈ ([("h0", "https://www.ics.uci.edu/a.pdf", false)] :
            List (String × String × Bool)) ∧
    "https://www.ics.uci.edu/a.pdf" ∉
      queuedUrls (frontier_resume ["https://www.ics.uci.edu/"]
        [("h0", "https://www.ics.uci.edu/a.pdf", false)]).domain_queues := by
  exact ⟨by decide, by decide⟩

/-- C8: every URL accepted by `is_valid` is at most 200 characters long,
its path has at most 10 non-empty segments, and no non-empty path segment
occurs twice. -/
theorem is_valid_url_shape (url : String) (h : is_valid url = true) :
    url.length ≤ 200 ∧ (url_path_segments url).length ≤ 10 ∧
      (url_path_segments url).Nodup := by
  unfold is_valid at h
  simp only [Bool.and_eq_true, and_assoc] at h
  obtain ⟨-, -, -, -, -, -, -, -, -, -, -, -, -, -, hlen, hseg, hdup, -, -⟩ := h
  refine ⟨?_, ?_, ?_⟩
  · have hx : ¬ (url.length > 200) := by simpa using hlen
    omega
  · have hx : ¬ ((url_path_segments url).length > 10) := by simpa using hseg
    omega
  · have hx : (url_path_segments url).length
        = (url_path_segments url).dedup.length := by simpa using hdup
    have hded : (url_path_segments url).dedup = url_path_segments url :=
      (List.dedup_sublist _).eq_of_length hx.symm
    exact hded ▸ List.nodup_dedup (url_path_segments url)

/-- C8 witness: the accepted URL of the spec's test vector satisfies all
three bounds. -/
theorem is_valid_url_shape_witness :
    is_valid "https://www.ics.uci.edu/people/" = true ∧
    "https://www.ics.uci.edu/people/".length ≤ 200 :=
  ⟨by decide,
   (is_valid_url_shape "https://www.ics.uci.edu/people/" (by decide)).1⟩

theorem bump_lookupD (u t : String) : ∀ m : List (String × Nat),
    (assocLookup t (bump m u)).getD 0
      = (assocLookup t m).getD 0 + (if t = u then 1 else 0) := by
  intro m
  induction m with
  | nil =>
    by_cases htu : t = u
    · subst htu; simp [bump, assocLookup]
    · simp [bump, assocLookup, htu, Ne.symm htu]
  | cons hd rest ih =>
    obtain ⟨k, v⟩ := hd
    by_cases hk : k = u
    · subst hk
      by_cases htk : t = k
      · subst htk; simp [bump, assocLookup]
      · simp [bump, assocLookup, htk, Ne.symm htk]
    · by_cases htk : t = k
      · subst htk
        have htu : ¬ (t = u) := fun h => hk (h ▸ rfl)
        simp [bump, assocLookup, hk, htu]
      · simp [bump, assocLookup, hk, Ne.symm htk, ih]

theorem foldl_bump_lookupD (t : String) :
    ∀ (tokens : List String) (m : List (String × Nat)),
      (assocLookup t (tokens.foldl bump m)).getD 0
        = (assocLookup t m).getD 0 + tokens.count t := by
  intro tokens
  induction tokens with
  | nil => intro m; simp
  | cons u rest ih =>
    intro m
    simp only [List.foldl_cons]
    rw [ih (bump m u), bump_lookupD u t m]
    by_cases htu : t = u
    · subst htu
      simp [List.count_cons]
      omega
    · simp [List.count_cons, htu, Ne.symm htu]

theorem mem_bump_keys (u x : String) : ∀ m : List (String × Nat),
    x ∈ (bump m u).map Prod.fst ↔ x ∈ m.map Prod.fst ∨ x = u := by
  intro m
  induction m with
  | nil => simp [bump]
  | cons hd rest ih =>
    obtain ⟨k, v⟩ := hd
    by_cases hk : k = u
    · subst hk
      simp [bump]
      tauto
    · simp [bump, hk, ih]
      tauto

theorem bump_keys_nodup (u : String) : ∀ m : List (String × Nat),
    (m.map Prod.fst).Nodup → ((bump m u).map Prod.fst).Nodup := by
  intro m
  induction m with
  | nil => intro; simp [bump]
  | cons hd rest ih =>
    obtain ⟨k, v⟩ := hd
    intro hnd
    simp only [List.map_cons, List.nodup_cons] at hnd
    obtain ⟨hknotin, hrest⟩ := hnd
    by_cases hk : k = u
    · subst hk
      simp [bump, List.nodup_cons, hknotin, hrest]
    · simp only [bump, if_neg hk, List.map_cons, List.nodup_cons]
      refine ⟨?_, ih hrest⟩
      rw [mem_bump_keys]
      rintro (hin | hequ)
      · exact hknotin hin
      · exact hk hequ

theorem compute_word_frequencies_nodup (tokens : List String) :
    ((compute_word_frequencies tokens).map Prod.fst).Nodup := by
  unfold compute_word_frequencies
  suffices h : ∀ (ts : List String) (m : List (String × Nat)),
      (m.map Prod.fst).Nodup → ((ts.foldl bump m).map Prod.fst).Nodup by
    exact h tokens [] (by simp)
  intro ts
  induction ts with
  | nil => intro m hm; simpa using hm
  | cons u rest ih => intro m hm; exact ih (bump m u) (bump_keys_nodup u m hm)

theorem assocLookup_eq_none {α : Type} (x : String) :
    ∀ l : List (String × α), x ∉ l.map Prod.fst → assocLookup x l = none := by
  intro l
  induction l with
  | nil => intro; rfl
  | cons hd t ih =>
    obtain ⟨k, v⟩ := hd
    intro hx
    simp only [List.map_cons, List.mem_cons, not_or] at hx
    obtain ⟨hk, ht⟩ := hx
    simp [assocLookup, Ne.symm hk, ih ht]

theorem wc_fold_update (t : String) :
    ∀ (freqs : List (String × Nat)) (wc : String → Nat),
      (freqs.map Prod.fst).Nodup →
      (freqs.foldl
        (fun wc p => fun x => if x = p.1 then wc x + min p.2 PER_PAGE_CAP else wc x)
        wc) t
        = wc t + min ((assocLookup t freqs).getD 0) PER_PAGE_CAP := by
  intro freqs
  induction freqs with
  | nil => intro wc _; simp [assocLookup]
  | cons hd rest ih =>
    obtain ⟨k, v⟩ := hd
    intro wc hnd
    simp only [List.map_cons, List.nodup_cons] at hnd
    obtain ⟨hknotin, hrest⟩ := hnd
    simp only [List.foldl_cons]
    rw [ih _ hrest]
    by_cases htk : t = k
    · subst htk
      have hnone : assocLookup t rest = none := assocLookup_eq_none t rest hknotin
      simp [assocLookup, hnone]
    · simp [assocLookup, Ne.symm htk, htk]

theorem record_stats_word_counts (url text : String) (s : Stats) (t : String) :
    (record_stats url text s).word_counts t
      = s.word_counts t + page_contribution t text := by
  unfold record_stats page_contribution
  by_cases h50 : (tokenize text).length < 50
  · rw [if_pos h50, if_pos h50]
    simp
  · rw [if_neg h50, if_neg h50]
    dsimp only
    rw [wc_fold_update t (compute_word_frequencies (filteredTokens (tokenize text)))
      s.word_counts (compute_word_frequencies_nodup (filteredTokens (tokenize text)))]
    unfold compute_word_frequencies
    rw [foldl_bump_lookupD t (filteredTokens (tokenize text)) []]
    simp [assocLookup]

theorem run_pages_word_counts (t : String) :
    ∀ (pages : List (String × String)) (s : Stats),
      ((pages.foldl record_page s).word_counts) t
        = s.word_counts t + (pages.map (fun p => page_contribution t p.2)).sum := by
  intro pages
  induction pages with
  | nil => intro s; simp
  | cons p rest ih =>
    intro s
    simp only [List.foldl_cons, List.map_cons, List.sum_cons]
    rw [ih (record_page s p)]
    unfold record_page
    rw [record_stats_word_counts p.1 p.2 s t]
    omega

/-- C5: for every token and every sequence of recorded `(url, visible
text)` page events starting from the initial statistics, the global
word-frequency count of the token equals the sum, over the recorded pages
(those passing the 50-token filter), of `min(perPageFilteredCount, 10)`. -/
theorem word_frequency_global_sum (pages : List (String × String))
    (token : String) :
    (run_pages pages).word_counts token
      = (pages.map (fun p => page_contribution token p.2)).sum := by
  unfold run_pages
  rw [run_pages_word_counts token pages initStats]
  simp [initStats]

end Crawler
